import Mathlib

/-!
Verification development for the Cloudflare IP selection pipeline
(source: ip/ip-cf-auto.py, with the shared parser also present in
ip/cf_auto.py).  The Python code is shallowly embedded: text handling
works on lists of characters, floats are modelled as rationals, and
network effects (TCP probes, HTTP downloads, geolocation requests) are
supplied as explicit outcome oracles.  Character classes model the ASCII
behaviour of the Python string predicates.
-/

namespace CfAuto

/-! ## Character classes and Python string helpers -/

/-- ASCII model of the regex class \d used by FULL_PATTERN / IP_PATTERN. -/
def isDigitC (c : Char) : Bool := c.isDigit

/-- ASCII model of the regex class \w (used by the \b word boundary). -/
def isWordC (c : Char) : Bool := c.isAlphanum || c == '_'

/-- ASCII model of the whitespace set removed by Python str.strip. -/
def isWsC (c : Char) : Bool :=
  c == ' ' || c == '\t' || c == '\n' || c == '\r' || c == '\x0b' || c == '\x0c'

/-- Left strip: drop leading whitespace (half of Python str.strip). -/
def stripL (l : List Char) : List Char := l.dropWhile isWsC

/-- Right strip: drop trailing whitespace (half of Python str.strip). -/
def stripR (l : List Char) : List Char := (l.reverse.dropWhile isWsC).reverse

/-- Python str.strip: remove whitespace at both ends. -/
def strip (l : List Char) : List Char := stripR (stripL l)

/-- Python str.splitlines restricted to the terminators \n and \r; an
unterminated trailing line is kept, a trailing terminator adds no empty
line, and the empty string yields no lines.  The pair \r\n, one
terminator in Python, here yields one extra empty line; since the
per-line cleaning below always discards empty lines, the parse result
is identical. -/
def isNlC (c : Char) : Bool := c == '\n' || c == '\r'

def splitLinesAux : List Char → List Char → List (List Char)
  | [], acc => if acc.isEmpty then [] else [acc.reverse]
  | c :: t, acc =>
    if isNlC c then acc.reverse :: splitLinesAux t []
    else splitLinesAux t (c :: acc)

def splitLines (l : List Char) : List (List Char) := splitLinesAux l []

/-- Locate the first occurrence of the two-character inline comment
marker (a space followed by a hash, the string " #" of the source) and
split around it: line.split(" #", 1). -/
def splitSH : List Char → Option (List Char × List Char)
  | [] => none
  | c :: t =>
    if c = ' ' ∧ t.head? = some '#' then some ([], t.tail)
    else (splitSH t).map (fun p => (c :: p.1, p.2))

/-- Per-line cleaning step of parse_text_to_items: strip the line, drop
it when blank or a whole-line comment, truncate at the first inline
" #" marker (re-stripping the kept part). -/
def cleanLine (l : List Char) : Option (List Char) :=
  let s := strip l
  match s with
  | [] => none
  | c :: _ =>
    if c == '#' then none
    else
      match splitSH s with
      | some p => some (strip p.1)
      | none => some s

/-- The cleaned line list of parse_text_to_items. -/
def cleanedLines (l : List Char) : List (List Char) :=
  (splitLines l).filterMap cleanLine

/-- "\n".join(cleaned_lines). -/
def joinNL : List (List Char) → List Char
  | [] => []
  | [l] => l
  | l :: ls => l ++ '\n' :: joinNL ls

/-! ## The two regular expressions, as explicit backtracking matchers

FULL_PATTERN = (\d{1,3}(?:\.\d{1,3}){3}):(\d+)
IP_PATTERN   = \b\d{1,3}(?:\.\d{1,3}){3}\b

A matcher at a fixed start position is the list of its alternatives in
backtracking priority order; each alternative is (consumed, rest). -/

/-- Alternatives of \d{1,3} (greedy: three digits first). -/
def digitAlts (s : List Char) : List (List Char × List Char) :=
  [3, 2, 1].filterMap (fun n =>
    if (s.take n).length = n && (s.take n).all isDigitC then
      some (s.take n, s.drop n)
    else none)

/-- Alternatives of \.\d{1,3}. -/
def dotAlts (s : List Char) : List (List Char × List Char) :=
  match s with
  | '.' :: t => (digitAlts t).map (fun p => ('.' :: p.1, p.2))
  | _ => []

/-- Sequential composition of two matchers, preserving priority order. -/
def seqA (f g : List Char → List (List Char × List Char))
    (s : List Char) : List (List Char × List Char) :=
  (f s).flatMap (fun p => (g p.2).map (fun q => (p.1 ++ q.1, q.2)))

/-- Alternatives of the dotted quad \d{1,3}(?:\.\d{1,3}){3}. -/
def quadAlts : List Char → List (List Char × List Char) :=
  seqA digitAlts (seqA dotAlts (seqA dotAlts dotAlts))

/-- Continuation test of FULL_PATTERN after the quad: a colon followed
by at least one digit. -/
def fullPred (p : List Char × List Char) : Bool :=
  match p.2 with
  | ':' :: d :: _ => isDigitC d
  | _ => false

/-- Attempt FULL_PATTERN at the current position; on success return the
captured ip, the captured (maximal) port digits, and the rest of the
input after the match. -/
def matchFullAt (s : List Char) : Option (List Char × List Char × List Char) :=
  match (quadAlts s).find? fullPred with
  | some (m, ':' :: t) => some (m, t.takeWhile isDigitC, t.dropWhile isDigitC)
  | _ => none

/-- Trailing word-boundary test of IP_PATTERN (the last matched
character is always a digit, so only the following character matters). -/
def barePred (p : List Char × List Char) : Bool :=
  match p.2 with
  | [] => true
  | c :: _ => !isWordC c

/-- Attempt IP_PATTERN at the current position; prev records whether the
preceding character is a word character (the leading \b). -/
def matchBareAt (prev : Bool) (s : List Char) : Option (List Char × List Char) :=
  if prev then none else (quadAlts s).find? barePred

/-- FULL_PATTERN.findall: scan left to right, resuming after each
match.  Structural fuel makes the definition kernel-computable; one
unit of fuel is spent per position or match, so fuel = length suffices. -/
def scanFullF : Nat → List Char → List (List Char × List Char)
  | 0, _ => []
  | _ + 1, [] => []
  | fuel + 1, c :: cs =>
    match matchFullAt (c :: cs) with
    | some (ip, pt, r) => (ip, pt) :: scanFullF fuel r
    | none => scanFullF fuel cs

def scanFull (s : List Char) : List (List Char × List Char) := scanFullF s.length s

/-- IP_PATTERN.findall.  After a successful match the previous character
is the final digit of the quad, hence a word character. -/
def scanBareF : Nat → Bool → List Char → List (List Char)
  | 0, _, _ => []
  | _ + 1, _, [] => []
  | fuel + 1, prev, c :: cs =>
    match matchBareAt prev (c :: cs) with
    | some (ip, r) => ip :: scanBareF fuel true r
    | none => scanBareF fuel (isWordC c) cs

def scanBareGo (prev : Bool) (s : List Char) : List (List Char) :=
  scanBareF s.length prev s

def scanBare (s : List Char) : List (List Char) := scanBareGo false s

/-! ## parse_text_to_items -/

/-- First extraction pass: record each ip:port pair whose ip is unseen. -/
def dedupFull : List (List Char × List Char) → List String →
    List (String × String) × List String
  | [], seen => ([], seen)
  | (ip, pt) :: rest, seen =>
    if (⟨ip⟩ : String) ∈ seen then dedupFull rest seen
    else
      let r := dedupFull rest ((⟨ip⟩ : String) :: seen)
      ((⟨ip⟩, ⟨pt⟩) :: r.1, r.2)

/-- Second extraction pass: record each unseen bare ip with port 443. -/
def dedupBare : List (List Char) → List String →
    List (String × String) × List String
  | [], seen => ([], seen)
  | ip :: rest, seen =>
    if (⟨ip⟩ : String) ∈ seen then dedupBare rest seen
    else
      let r := dedupBare rest ((⟨ip⟩ : String) :: seen)
      ((⟨ip⟩, "443") :: r.1, r.2)

/-- parse_text_to_items on a character list: clean the lines, rejoin
with newlines, extract ip:port matches then bare ips, deduplicating by
ip with first occurrence winning. -/
def parseItems (l : List Char) : List (String × String) :=
  let j := joinNL (cleanedLines l)
  let f := dedupFull (scanFull j) []
  f.1 ++ (dedupBare (scanBare j) f.2).1

/-- parse_text_to_items of the source (both files define it identically). -/
def parse_text_to_items (t : String) : List (String × String) :=
  parseItems t.data

/-! ## Configuration constants of ip-cf-auto.py -/

def RETRIES : Nat := 2
def MAX_OUTPUT_NODES : Nat := 15
def PING_COUNT : Nat := 4
def SPEEDTEST_COUNT : Nat := 2
def MIN_DOWNLOAD_SPEED : ℚ := 4
def MAX_LATENCY : ℚ := 300
def MAX_PACKET_LOSS : ℚ := 1

/-- The default value of the count parameter of quick_ping_test
(def quick_ping_test(ip, port, count: int = 2)). -/
def QUICK_PING_DEFAULT_COUNT : Nat := 2

/-- The per-attempt timeout (seconds) quick_ping_test passes to
tcp_ping. -/
def QUICK_PING_TIMEOUT : ℚ := 2

/-! ## Measurements.  A probe oracle maps an attempt index to the
outcome of that tcp_ping call: success flag and elapsed milliseconds.
A download oracle maps an attempt index to the speed (MB/s) returned by
download_speed_test, 0 meaning failure. -/

/-- Indices of the successful attempts among the first count. -/
def successIdx (count : Nat) (att : Nat → Bool × ℚ) : List Nat :=
  (List.range count).filter (fun i => (att i).1)

/-- Sum of the elapsed times of the successful attempts. -/
def totalLatency (count : Nat) (att : Nat → Bool × ℚ) : ℚ :=
  ((successIdx count att).map (fun i => (att i).2)).sum

/-- quick_ping_test: count tcp_ping attempts; average latency of the
successful ones and percentage of lost attempts, with the sentinel pair
(9999, 100) when no attempt succeeds. -/
def quick_ping_test (count : Nat) (att : Nat → Bool × ℚ) : ℚ × ℚ :=
  let s := (successIdx count att).length
  if 0 < s then
    (totalLatency count att / s, ((count : ℚ) - s) / count * 100)
  else (9999, 100)

structure QuickRes where
  ip : String
  port : Nat
  lat : ℚ
  loss : ℚ
deriving DecidableEq

structure SpeedInfo where
  latency : ℚ
  packet_loss : ℚ
  download_speed : ℚ
  qualified : Bool
deriving DecidableEq

structure Node where
  ip : String
  port : String
  latency : ℚ
  packet_loss : ℚ
  download_speed : ℚ
  country : String := ""
deriving DecidableEq

/-- batch_quick_ping submits quick_ping_test(ip, port) for every
candidate, i.e. with the default count of 2; the completion order of
the pool is left to the caller by quantifying theorems over arbitrary
result lists. -/
def batch_quick_ping (cands : List (String × Nat))
    (qo : String × Nat → Nat → Bool × ℚ) : List QuickRes :=
  cands.map (fun c =>
    { ip := c.1, port := c.2
      lat := (quick_ping_test QUICK_PING_DEFAULT_COUNT (qo c)).1
      loss := (quick_ping_test QUICK_PING_DEFAULT_COUNT (qo c)).2 })

/-- Average of the successful (positive-speed) download attempts of
detailed_speed_test, 0 when every attempt failed. -/
def dsAvg (dl : Nat → ℚ) : ℚ :=
  let valid := ((List.range SPEEDTEST_COUNT).map dl).filter (fun s => 0 < s)
  if valid.length ≠ 0 then valid.sum / (valid.length : ℚ) else 0

/-- detailed_speed_test: re-ping with PING_COUNT attempts; if latency or
loss exceeds its threshold, return immediately with speed 0 and
qualified False; otherwise run SPEEDTEST_COUNT download attempts,
average the positive ones (0 if none), and apply the three-way gate. -/
def detailed_speed_test (att : Nat → Bool × ℚ) (dl : Nat → ℚ) : SpeedInfo :=
  let lp := quick_ping_test PING_COUNT att
  if MAX_LATENCY < lp.1 ∨ MAX_PACKET_LOSS < lp.2 then
    { latency := lp.1, packet_loss := lp.2, download_speed := 0, qualified := false }
  else
    { latency := lp.1, packet_loss := lp.2, download_speed := dsAvg dl
      qualified := decide (lp.1 ≤ MAX_LATENCY ∧ lp.2 ≤ MAX_PACKET_LOSS ∧
        MIN_DOWNLOAD_SPEED ≤ dsAvg dl) }

/-- Number of download_speed_test calls detailed_speed_test issues for a
candidate: none when the latency/loss gate fails, SPEEDTEST_COUNT
otherwise (ghost observation of the control flow). -/
def downloadAttempts (att : Nat → Bool × ℚ) : Nat :=
  let lp := quick_ping_test PING_COUNT att
  if MAX_LATENCY < lp.1 ∨ MAX_PACKET_LOSS < lp.2 then 0 else SPEEDTEST_COUNT

/-! ## Geolocation: get_cc_ipapi.  Each attempt oracle entry is the
countryCode string extracted from the response, or none for any failure
(network error, non-200 status, missing or non-string field). -/

/-- Python str.isalpha at character level: true for every Unicode
alphabetic character.  Modelled fragment: the ASCII letters together
with the non-ASCII alphabetic letter 'ß' (U+00DF); Python accepts
further Unicode letters, each handled by the same accept branch. -/
def pyIsAlphaChar (c : Char) : Bool := c.isAlpha || c == 'ß'

/-- Python str.upper at character level: the FULL uppercase mapping,
which may lengthen the string.  'ß' uppercases to the two-character
"SS"; the ASCII letters map to their single-character uppercase. -/
def pyUpperChar (c : Char) : List Char :=
  if c == 'ß' then ['S', 'S'] else [c.toUpper]

/-- Python str.upper: concatenation of the per-character full
uppercase mappings. -/
def pyUpper (s : String) : String := ⟨s.data.flatMap pyUpperChar⟩

/-- One attempt of the retry loop: accept the code iff it is a
2-character alphabetic string, returning its uppercase form (which may
have more than 2 characters, e.g. for "ßß"). -/
def ccAttempt (r : Option String) : Option String :=
  match r with
  | some cc =>
    if cc.data.length = 2 ∧ cc.data.all pyIsAlphaChar then some (pyUpper cc) else none
  | none => none

def ccLoop : List (Option String) → String
  | [] => "XX"
  | r :: rest =>
    match ccAttempt r with
    | some s => s
    | none => ccLoop rest

/-- get_cc_ipapi: RETRIES + 1 attempts, falling back to "XX". -/
def get_cc_ipapi (resp : Nat → Option String) : String :=
  ccLoop ((List.range (RETRIES + 1)).map resp)

/-! ## Merge of the TLS and DIY item lists (main, step 2) -/

/-- Assignment into the insertion-ordered dict by_ip: overwrite in place
when the key exists, append otherwise. -/
def dictSet (m : List (String × String)) (k v : String) : List (String × String) :=
  if m.any (fun e => e.1 = k) then
    m.map (fun e => if e.1 = k then (k, v) else e)
  else m ++ [(k, v)]

/-- Python port.isdigit() together with the truthiness test
(if port and port.isdigit()), on ASCII digits. -/
def isDigitPort (p : String) : Bool :=
  !p.data.isEmpty && p.data.all isDigitC

/-- Insertion of every TLS item into the fresh dict (first loop of
main step 2). -/
def tlsFold (tls : List (String × String)) : List (String × String) :=
  tls.foldl (fun m it => dictSet m it.1 it.2) []

/-- One DIY item folded into the dict (second loop of main step 2): a
new address is appended, an existing address has its port overwritten
only by a nonempty all-digit port string. -/
def diyStep (m : List (String × String)) (it : String × String) : List (String × String) :=
  if m.any (fun e => e.1 = it.1) then
    if isDigitPort it.2 then dictSet m it.1 it.2 else m
  else m ++ [it]

/-- Merge: insert every TLS item, then fold the DIY items. -/
def mergeItems (tls diy : List (String × String)) : List (String × String) :=
  diy.foldl diyStep (tlsFold tls)

/-- First-match lookup in the merged list (dict access by key). -/
def lookupIp (m : List (String × String)) (ip : String) : Option String :=
  (m.find? (fun e => e.1 = ip)).map (fun e => e.2)

/-- int() on the all-digit port strings the parser produces. -/
def strToNat (s : String) : Nat :=
  s.data.foldl (fun n c => n * 10 + (c.toNat - 48)) 0

/-! ## Selection (main, steps 4 to 8) -/

/-- Line 417: latency <= MAX_LATENCY and packet_loss <= MAX_PACKET_LOSS. -/
def quickQualified (q : QuickRes) : Bool :=
  q.lat ≤ MAX_LATENCY && q.loss ≤ MAX_PACKET_LOSS

/-- The qualified_quick list of main (order of quick_results kept). -/
def qualified_quick (qrs : List QuickRes) : List QuickRes :=
  qrs.filter quickQualified

/-- Python list.sort(key=latency): a stable sort ascending by latency. -/
def sortByLat (l : List QuickRes) : List QuickRes :=
  l.insertionSort (fun a b => a.lat ≤ b.lat)

/-- candidate_nodes: top 30 quick-qualified candidates by latency. -/
def candidate_nodes (qrs : List QuickRes) : List QuickRes :=
  (sortByLat (qualified_quick qrs)).take 30

/-- candidate_ip_port_list: the pairs handed to the detailed stage. -/
def detailedStageInputs (qrs : List QuickRes) : List (String × Nat) :=
  (candidate_nodes qrs).map (fun q => (q.ip, q.port))

/-- Python list.sort(key=download_speed, reverse=True): stable sort
descending by download speed. -/
def sortBySpeedDesc (l : List Node) : List Node :=
  l.insertionSort (fun a b => b.download_speed ≤ a.download_speed)

/-- Step 6: the qualified detailed results, as nodes, in candidate
order (det is the per-candidate outcome of detailed_speed_test). -/
def primaryFiltered (qrs : List QuickRes) (det : String × Nat → SpeedInfo) : List Node :=
  (candidate_nodes qrs).filterMap (fun q =>
    let si := det (q.ip, q.port)
    if si.qualified then
      some { ip := q.ip, port := toString q.port, latency := si.latency
             packet_loss := si.packet_loss, download_speed := si.download_speed }
    else none)

/-- Steps 5 and 6: qualified nodes sorted descending by speed,
truncated to MAX_OUTPUT_NODES. -/
def primaryNodes (qrs : List QuickRes) (det : String × Nat → SpeedInfo) : List Node :=
  (sortBySpeedDesc (primaryFiltered qrs det)).take MAX_OUTPUT_NODES

/-- Step 7: the degraded path re-sorts qualified_quick by latency and
takes the MAX_OUTPUT_NODES lowest-latency nodes with speed 0. -/
def fallbackNodes (qrs : List QuickRes) : List Node :=
  ((sortByLat (sortByLat (qualified_quick qrs))).take MAX_OUTPUT_NODES).map
    (fun q => { ip := q.ip, port := toString q.port, latency := q.lat
                packet_loss := q.loss, download_speed := 0 })

/-- final_nodes after step 7. -/
def final_nodes (qrs : List QuickRes) (det : String × Nat → SpeedInfo) : List Node :=
  let p := primaryNodes qrs det
  if p.isEmpty then fallbackNodes qrs else p

/-- Step 8: annotate each final node with its country code. -/
def annotateNodes (ns : List Node) (resp : String → Nat → Option String) : List Node :=
  ns.map (fun n => { n with country := get_cc_ipapi (resp n.ip) })

/-! ## Report emission (steps 9 and 10), data rows only -/

/-- Python round(x, 2): round half to even at two decimals. -/
def roundHalfEven (q : ℚ) : ℤ :=
  let f := ⌊q⌋
  let r := q - f
  if r < 1/2 then f
  else if 1/2 < r then f + 1
  else if f % 2 = 0 then f else f + 1

def round2 (q : ℚ) : ℚ := (roundHalfEven (q * 100) : ℚ) / 100

/-- The data lines of ip-no.txt: IP:port#country. -/
def outputTxtLines (ns : List Node) : List String :=
  ns.map (fun n => n.ip ++ ":" ++ n.port ++ "#" ++ n.country)

/-- The data rows of ip-no.csv. -/
def outputCsvRows (ns : List Node) : List (String × String × String × ℚ × ℚ × ℚ) :=
  ns.map (fun n =>
    (n.ip, n.port, n.country, round2 n.latency, round2 n.packet_loss,
      round2 n.download_speed))

/-! ## The whole run (main).  The two effective input blobs stand for
the TLS file and the DIY source (a fetch or read failure is the empty
string, exactly what fetch_text / read_text_file return).  The result
is none when main returns at the no-input check, before any output file
is opened; otherwise the annotated final node list that both output
files serialize. -/

def runPipeline (tlsText diyText : String)
    (qo : String × Nat → Nat → Bool × ℚ)
    (po : String × Nat → Nat → Bool × ℚ)
    (dlo : String × Nat → Nat → ℚ)
    (cc : String → Nat → Option String) : Option (List Node) :=
  let tls := parse_text_to_items tlsText
  let diy := parse_text_to_items diyText
  if tls.isEmpty && diy.isEmpty then none
  else
    let byIp := mergeItems tls diy
    let cands := byIp.map (fun e => (e.1, strToNat e.2))
    let quick := batch_quick_ping cands qo
    let det := fun c => detailed_speed_test (po c) (dlo c)
    some (annotateNodes (final_nodes quick det) cc)

/-! # Theorems -/

/-- Sorting by latency is idempotent (the code sorts qualified_quick
once at line 421 and again at line 453). -/
theorem sortByLat_idem (l : List QuickRes) : sortByLat (sortByLat l) = sortByLat l := by
  haveI : IsTotal QuickRes (fun a b => a.lat ≤ b.lat) := ⟨fun a b => le_total _ _⟩
  haveI : IsTrans QuickRes (fun a b => a.lat ≤ b.lat) := ⟨fun _ _ _ => le_trans⟩
  exact List.Sorted.insertionSort_eq (List.sorted_insertionSort _ l)

theorem sortBySpeedDesc_nil_iff (l : List Node) : sortBySpeedDesc l = [] ↔ l = [] := by
  unfold sortBySpeedDesc
  constructor
  · intro h
    have hl := (List.perm_insertionSort
      (fun a b : Node => b.download_speed ≤ a.download_speed) l).length_eq
    rw [h] at hl
    exact List.length_eq_zero.mp hl.symm
  · rintro rfl; rfl

/-- The primary selection is empty exactly when no candidate node has a
qualified detailed result. -/
theorem primaryNodes_eq_nil_iff (qrs : List QuickRes) (det : String × Nat → SpeedInfo) :
    primaryNodes qrs det = [] ↔
      ∀ q ∈ candidate_nodes qrs, (det (q.ip, q.port)).qualified = false := by
  unfold primaryNodes
  rw [List.take_eq_nil_iff]
  simp only [MAX_OUTPUT_NODES]
  rw [sortBySpeedDesc_nil_iff]
  unfold primaryFiltered
  rw [List.filterMap_eq_nil_iff]
  constructor
  · rintro (h | h)
    · omega
    · intro q hq
      have hnone := h q hq
      by_contra hne
      have hq' : (det (q.ip, q.port)).qualified = true := by
        revert hne; cases (det (q.ip, q.port)).qualified <;> simp
      simp [hq'] at hnone
  · intro h
    right
    intro q hq
    simp [h q hq]

/-- C1: The fallback is taken iff the primary selection is empty (iff
no detailed result is qualified); in that case the final node list is
the quick-qualified candidates sorted ascending by latency, truncated
to MAX_OUTPUT_NODES, each with download speed 0. -/
theorem C1_fallback (qrs : List QuickRes) (det : String × Nat → SpeedInfo) :
    (primaryNodes qrs det = [] →
      final_nodes qrs det =
        ((sortByLat (qualified_quick qrs)).take MAX_OUTPUT_NODES).map
          (fun q => { ip := q.ip, port := toString q.port, latency := q.lat
                      packet_loss := q.loss, download_speed := 0 })) ∧
    (primaryNodes qrs det ≠ [] → final_nodes qrs det = primaryNodes qrs det) ∧
    (primaryNodes qrs det = [] ↔
      ∀ q ∈ candidate_nodes qrs, (det (q.ip, q.port)).qualified = false) ∧
    (∀ n ∈ fallbackNodes qrs, n.download_speed = 0) := by
  refine ⟨?_, ?_, primaryNodes_eq_nil_iff qrs det, ?_⟩
  · intro h
    have he : final_nodes qrs det = fallbackNodes qrs := by
      simp [final_nodes, h]
    rw [he]
    unfold fallbackNodes
    rw [sortByLat_idem]
  · intro h
    simp [final_nodes, h]
  · intro n hn
    unfold fallbackNodes at hn
    rcases List.mem_map.mp hn with ⟨q, _, rfl⟩
    rfl

/-- C1 witness: with no candidates at all, the fallback applies and is
empty. -/
theorem C1_fallback_witness :
    final_nodes [] (fun _ => SpeedInfo.mk 0 0 0 false) = [] :=
  ((C1_fallback [] _).1 rfl).trans rfl

/-- C6: Every promoted candidate is quick-qualified and comes from the
probed set; at most 30 are promoted; any quick-qualified candidate left
out has latency at least that of every promoted one; and the detailed
stage is fed exactly the promoted candidates. -/
theorem C6_promotion (qrs : List QuickRes) :
    (∀ q ∈ candidate_nodes qrs, quickQualified q = true ∧ q ∈ qrs) ∧
    (candidate_nodes qrs).length ≤ 30 ∧
    (∀ x ∈ qualified_quick qrs, x ∉ candidate_nodes qrs →
      ∀ y ∈ candidate_nodes qrs, y.lat ≤ x.lat) ∧
    detailedStageInputs qrs = (candidate_nodes qrs).map (fun q => (q.ip, q.port)) := by
  haveI : IsTotal QuickRes (fun a b : QuickRes => a.lat ≤ b.lat) := ⟨fun a b => le_total _ _⟩
  haveI : IsTrans QuickRes (fun a b : QuickRes => a.lat ≤ b.lat) := ⟨fun _ _ _ => le_trans⟩
  have hperm := List.perm_insertionSort (fun a b : QuickRes => a.lat ≤ b.lat)
    (qualified_quick qrs)
  refine ⟨?_, List.length_take_le _ _, ?_, rfl⟩
  · intro q hq
    have h1 : q ∈ sortByLat (qualified_quick qrs) := List.mem_of_mem_take hq
    have h2 : q ∈ qualified_quick qrs := hperm.mem_iff.mp h1
    unfold qualified_quick at h2
    exact ⟨(List.mem_filter.mp h2).2, (List.mem_filter.mp h2).1⟩
  · intro x hx hnx y hy
    have hxs : x ∈ sortByLat (qualified_quick qrs) := hperm.mem_iff.mpr hx
    have hsplit : sortByLat (qualified_quick qrs) =
        (sortByLat (qualified_quick qrs)).take 30 ++
        (sortByLat (qualified_quick qrs)).drop 30 :=
      (List.take_append_drop 30 _).symm
    have hxd : x ∈ (sortByLat (qualified_quick qrs)).drop 30 := by
      rcases List.mem_append.mp (hsplit ▸ hxs) with h | h
      · exact absurd h hnx
      · exact h
    have hsorted : (sortByLat (qualified_quick qrs)).Pairwise
        (fun a b : QuickRes => a.lat ≤ b.lat) :=
      List.sorted_insertionSort _ _
    rw [hsplit] at hsorted
    exact (List.pairwise_append.mp hsorted).2.2 y hy x hxd

/-- C6 witness: a reachable 40 ms candidate is promoted, quick-qualified
and drawn from the probed set. -/
theorem C6_promotion_witness :
    quickQualified { ip := "9.9.9.9", port := 443, lat := 40, loss := 0 } = true ∧
    ({ ip := "9.9.9.9", port := 443, lat := 40, loss := 0 } : QuickRes) ∈
      [{ ip := "9.9.9.9", port := 443, lat := 40, loss := 0 }] :=
  (C6_promotion [{ ip := "9.9.9.9", port := 443, lat := 40, loss := 0 }]).1
    { ip := "9.9.9.9", port := 443, lat := 40, loss := 0 }
    (by norm_num [candidate_nodes, sortByLat, qualified_quick, quickQualified,
      List.insertionSort, List.orderedInsert, MAX_LATENCY, MAX_PACKET_LOSS])

/-- C2: For every input (any number of candidates, any probe/speed
outcomes), the length of the final node list emitted to both output
files is at most the configured maximum output size
(MAX_OUTPUT_NODES = 15), on the primary path and on the degraded
fallback path alike. -/
theorem C2_bounded_output (qrs : List QuickRes) (det : String × Nat → SpeedInfo)
    (resp : String → Nat → Option String) :
    (outputTxtLines (annotateNodes (final_nodes qrs det) resp)).length ≤ MAX_OUTPUT_NODES ∧
    (outputCsvRows (annotateNodes (final_nodes qrs det) resp)).length ≤ MAX_OUTPUT_NODES := by
  have h : (final_nodes qrs det).length ≤ MAX_OUTPUT_NODES := by
    by_cases hp : (primaryNodes qrs det).isEmpty
    · have he : final_nodes qrs det = fallbackNodes qrs := by simp [final_nodes, hp]
      rw [he]
      simp [fallbackNodes]
    · have he : final_nodes qrs det = primaryNodes qrs det := by simp [final_nodes, hp]
      rw [he]
      simp [primaryNodes]
  exact ⟨by simpa [outputTxtLines, annotateNodes] using h,
    by simpa [outputCsvRows, annotateNodes] using h⟩

/-- C3: A candidate reaching the throughput stage is qualified iff
latency, packet loss and download speed all meet their thresholds;
any single measurement past its threshold forces qualified = false; a
candidate failing the latency/loss gate gets download_speed = 0,
qualified = false, and zero download attempts. -/
theorem C3_qualification_gate (att : Nat → Bool × ℚ) (dl : Nat → ℚ) :
    ((detailed_speed_test att dl).qualified = true ↔
      ((detailed_speed_test att dl).latency ≤ MAX_LATENCY ∧
       (detailed_speed_test att dl).packet_loss ≤ MAX_PACKET_LOSS ∧
       MIN_DOWNLOAD_SPEED ≤ (detailed_speed_test att dl).download_speed)) ∧
    (MAX_LATENCY < (detailed_speed_test att dl).latency →
      (detailed_speed_test att dl).qualified = false) ∧
    (MAX_PACKET_LOSS < (detailed_speed_test att dl).packet_loss →
      (detailed_speed_test att dl).qualified = false) ∧
    ((detailed_speed_test att dl).download_speed < MIN_DOWNLOAD_SPEED →
      (detailed_speed_test att dl).qualified = false) ∧
    (MAX_LATENCY < (quick_ping_test PING_COUNT att).1 ∨
        MAX_PACKET_LOSS < (quick_ping_test PING_COUNT att).2 →
      (detailed_speed_test att dl).download_speed = 0 ∧
      (detailed_speed_test att dl).qualified = false ∧
      downloadAttempts att = 0) := by
  by_cases hg : MAX_LATENCY < (quick_ping_test PING_COUNT att).1 ∨
      MAX_PACKET_LOSS < (quick_ping_test PING_COUNT att).2
  · have hd : detailed_speed_test att dl =
        { latency := (quick_ping_test PING_COUNT att).1
          packet_loss := (quick_ping_test PING_COUNT att).2
          download_speed := 0, qualified := false } := by
      unfold detailed_speed_test
      rw [if_pos hg]
    have hda : downloadAttempts att = 0 := by
      unfold downloadAttempts
      rw [if_pos hg]
    rw [hd]
    refine ⟨?_, fun _ => rfl, fun _ => rfl, fun _ => rfl, fun _ => ⟨rfl, rfl, hda⟩⟩
    simp only [Bool.false_eq_true, false_iff]
    rintro ⟨h1, h2, _⟩
    rcases hg with hg | hg
    · exact absurd h1 (not_le.mpr hg)
    · exact absurd h2 (not_le.mpr hg)
  · have hd : detailed_speed_test att dl =
        { latency := (quick_ping_test PING_COUNT att).1
          packet_loss := (quick_ping_test PING_COUNT att).2
          download_speed := dsAvg dl
          qualified := decide ((quick_ping_test PING_COUNT att).1 ≤ MAX_LATENCY ∧
            (quick_ping_test PING_COUNT att).2 ≤ MAX_PACKET_LOSS ∧
            MIN_DOWNLOAD_SPEED ≤ dsAvg dl) } := by
      unfold detailed_speed_test
      rw [if_neg hg]
    rw [hd]
    push_neg at hg
    refine ⟨by simp, ?_, ?_, ?_, fun h => absurd h (by push_neg; exact hg)⟩
    · intro h
      exact absurd h (not_lt.mpr hg.1)
    · intro h
      exact absurd h (not_lt.mpr hg.2)
    · intro h
      simp only [decide_eq_false_iff_not]
      rintro ⟨_, _, h3⟩
      exact absurd h3 (not_le.mpr h)

/-- C3 witness: a candidate at 50 ms, 0 % loss and 10 MB/s is qualified. -/
theorem C3_qualification_gate_witness :
    (detailed_speed_test (fun _ => (true, 50)) (fun _ => 10)).qualified = true :=
  (C3_qualification_gate (fun _ => (true, 50)) (fun _ => 10)).1.mpr
    (by norm_num [detailed_speed_test, quick_ping_test, successIdx, totalLatency,
      List.range_succ, dsAvg, MAX_LATENCY, MAX_PACKET_LOSS, MIN_DOWNLOAD_SPEED,
      SPEEDTEST_COUNT, PING_COUNT])

/-- C5 counterexample: with attempts 0 and 1 failing and attempts 2 and
3 succeeding at 10 ms, the reachability prober (which calls
quick_ping_test with its default count of 2) reports the sentinel
(9999, 100), while a 4-attempt probe as the claim states would report
(10, 50): the prober does not perform 4 attempts. -/
theorem C5_counterexample :
    batch_quick_ping [("1.2.3.4", 443)]
        (fun _ i => if i < 2 then (false, 0) else (true, 10)) =
      [{ ip := "1.2.3.4", port := 443, lat := 9999, loss := 100 }] ∧
    quick_ping_test PING_COUNT
        (fun i => if i < 2 then ((false : Bool), (0 : ℚ)) else (true, 10)) =
      (10, 50) ∧
    ((9999 : ℚ), (100 : ℚ)) ≠ ((10 : ℚ), (50 : ℚ)) := by
  refine ⟨?_, ?_, by norm_num⟩
  · norm_num [batch_quick_ping, quick_ping_test, successIdx, totalLatency,
      List.range_succ, QUICK_PING_DEFAULT_COUNT]
  · norm_num [quick_ping_test, successIdx, totalLatency, List.range_succ, PING_COUNT]

/-- C5 amended: the reachability prober performs exactly 2 TCP
connection attempts per candidate (the default count of
quick_ping_test; the configured PING_COUNT = 4 is used only by the
detailed stage), each with a 2-second timeout; latency_ms is the
average elapsed time over successful attempts only, packet_loss_pct is
100 * (attempts - successes) / attempts, and zero successes yields the
sentinels 9999 and 100. -/
theorem C5_prober_two_attempts (cands : List (String × Nat))
    (qo : String × Nat → Nat → Bool × ℚ) (count : Nat) (att : Nat → Bool × ℚ) :
    QUICK_PING_DEFAULT_COUNT = 2 ∧ QUICK_PING_TIMEOUT = 2 ∧ PING_COUNT = 4 ∧
    batch_quick_ping cands qo = cands.map (fun c =>
      { ip := c.1, port := c.2
        lat := (quick_ping_test QUICK_PING_DEFAULT_COUNT (qo c)).1
        loss := (quick_ping_test QUICK_PING_DEFAULT_COUNT (qo c)).2 }) ∧
    ((successIdx count att).length = 0 → quick_ping_test count att = (9999, 100)) ∧
    (0 < (successIdx count att).length →
      quick_ping_test count att =
        (totalLatency count att / ((successIdx count att).length : ℚ),
         100 * ((count : ℚ) - ((successIdx count att).length : ℚ)) / (count : ℚ))) := by
  refine ⟨rfl, rfl, rfl, rfl, ?_, ?_⟩
  · intro h
    unfold quick_ping_test
    rw [if_neg (by omega)]
  · intro h
    unfold quick_ping_test
    rw [if_pos h]
    refine Prod.ext rfl ?_
    show ((count : ℚ) - ((successIdx count att).length : ℚ)) / (count : ℚ) * 100 = _
    ring

/-- C5 amended witness: five attempts, none successful, give the
sentinel result. -/
theorem C5_prober_two_attempts_witness :
    quick_ping_test 5 (fun _ => (false, 0)) = (9999, 100) :=
  (C5_prober_two_attempts [] (fun _ _ => (false, 0)) 5 (fun _ => (false, 0))).2.2.2.2.1
    (by decide)

/-- C7: The run aborts (producing no output) exactly when both sources
parse to zero candidates; a single nonempty source suffices to proceed
(an unreadable or empty source is the empty blob). -/
theorem C7_input_empty_fatal (tlsText diyText : String)
    (qo po : String × Nat → Nat → Bool × ℚ) (dlo : String × Nat → Nat → ℚ)
    (cc : String → Nat → Option String) :
    runPipeline tlsText diyText qo po dlo cc = none ↔
      (parse_text_to_items tlsText = [] ∧ parse_text_to_items diyText = []) := by
  unfold runPipeline
  by_cases h1 : parse_text_to_items tlsText = []
  <;> by_cases h2 : parse_text_to_items diyText = []
  <;> simp [h1, h2]

theorem lookupIp_cons (e : String × String) (rest : List (String × String)) (ip : String) :
    lookupIp (e :: rest) ip = if e.1 = ip then some e.2 else lookupIp rest ip := by
  unfold lookupIp
  by_cases he : e.1 = ip
  · rw [List.find?_cons_of_pos _ (by simpa using he), if_pos he]
    rfl
  · rw [List.find?_cons_of_neg _ (by simpa using he), if_neg he]

theorem lookupIp_any {m : List (String × String)} {ip p} (h : lookupIp m ip = some p) :
    m.any (fun e => e.1 = ip) = true := by
  induction m with
  | nil => cases h
  | cons e rest ih =>
    rw [lookupIp_cons] at h
    by_cases he : e.1 = ip
    · simp [he]
    · rw [if_neg he] at h
      simpa [he] using ih h

theorem lookup_map_over_self (m : List (String × String)) (k v : String)
    (h : m.any (fun e => e.1 = k) = true) :
    lookupIp (m.map (fun e => if e.1 = k then (k, v) else e)) k = some v := by
  induction m with
  | nil => simp at h
  | cons e rest ih =>
    rw [List.map_cons]
    by_cases he : e.1 = k
    · rw [if_pos he, lookupIp_cons]
      simp
    · rw [if_neg he, lookupIp_cons, if_neg he]
      refine ih ?_
      simpa [he] using h

theorem lookup_map_over_other (m : List (String × String)) (k v ip : String)
    (h : k ≠ ip) :
    lookupIp (m.map (fun e => if e.1 = k then (k, v) else e)) ip = lookupIp m ip := by
  induction m with
  | nil => rfl
  | cons e rest ih =>
    rw [List.map_cons, lookupIp_cons, lookupIp_cons]
    by_cases he : e.1 = k
    · have h1 : (if e.1 = k then (k, v) else e) = (k, v) := if_pos he
      rw [h1]
      have h2 : ¬((k, v).1 = ip) := by simpa using h
      rw [if_neg h2, if_neg (by rw [he]; exact fun hh => h hh)]
      exact ih
    · have h1 : (if e.1 = k then (k, v) else e) = e := if_neg he
      rw [h1]
      by_cases he2 : e.1 = ip
      · rw [if_pos he2, if_pos he2]
      · rw [if_neg he2, if_neg he2]
        exact ih

theorem lookupIp_dictSet_self {m : List (String × String)} {k v}
    (h : m.any (fun e => e.1 = k) = true) :
    lookupIp (dictSet m k v) k = some v := by
  unfold dictSet
  rw [if_pos h]
  exact lookup_map_over_self m k v h

theorem lookupIp_append_other {m : List (String × String)} {it : String × String} {ip}
    (h : it.1 ≠ ip) : lookupIp (m ++ [it]) ip = lookupIp m ip := by
  induction m with
  | nil =>
    simp only [List.nil_append]
    rw [lookupIp_cons, if_neg h]
  | cons e rest ih =>
    rw [List.cons_append, lookupIp_cons, lookupIp_cons]
    by_cases he : e.1 = ip
    · rw [if_pos he, if_pos he]
    · rw [if_neg he, if_neg he]
      exact ih

theorem lookupIp_dictSet_other {m : List (String × String)} {k v ip} (h : k ≠ ip) :
    lookupIp (dictSet m k v) ip = lookupIp m ip := by
  unfold dictSet
  by_cases ha : m.any (fun e => e.1 = k) = true
  · rw [if_pos ha]
    exact lookup_map_over_other m k v ip h
  · rw [if_neg ha]
    exact lookupIp_append_other (by simpa using h)



theorem matchFullAt_port {s ip pt r} (h : matchFullAt s = some (ip, pt, r)) :
    pt ≠ [] ∧ pt.all isDigitC = true := by
  unfold matchFullAt at h
  cases hf : (quadAlts s).find? fullPred with
  | none => rw [hf] at h; cases h
  | some p =>
    have hpred : fullPred p = true := List.find?_some hf
    rw [hf] at h
    split at h
    · rename_i m t heq
      cases h
      injection heq with h3
      subst h3
      unfold fullPred at hpred
      cases t with
      | nil => simp at hpred
      | cons d t2 =>
        simp only at hpred
        constructor
        · simp [List.takeWhile, hpred]
        · exact List.all_eq_true.mpr (fun x hx => List.mem_takeWhile_imp hx)
    · cases h

/-- C4 counterexample: with primary blob 1.2.3.4:8443 and secondary
blob bare 1.2.3.4, the merged port is 443 (the parser default), not the
primary's 8443 as the claim states. -/
theorem C4_counterexample :
    mergeItems (parse_text_to_items "1.2.3.4:8443") (parse_text_to_items "1.2.3.4") =
      [("1.2.3.4", "443")] ∧
    lookupIp (mergeItems (parse_text_to_items "1.2.3.4:8443")
      (parse_text_to_items "1.2.3.4")) "1.2.3.4" ≠ some "8443" := by
  exact ⟨by decide, by decide⟩

theorem mergeKeep (diy : List (String × String)) (ip p0 : String) :
    ∀ m, lookupIp m ip = some p0 →
      (∀ p1, (ip, p1) ∈ diy → isDigitPort p1 = false) →
      lookupIp (diy.foldl diyStep m) ip = some p0 := by
  induction diy with
  | nil => intro m hm _; exact hm
  | cons it rest ih =>
    intro m hm hd
    rw [List.foldl_cons]
    refine ih (diyStep m it) ?_ (fun p1 hp1 => hd p1 (List.mem_cons_of_mem _ hp1))
    unfold diyStep
    by_cases ha : m.any (fun e => e.1 = it.1) = true
    · rw [if_pos ha]
      by_cases hdig : isDigitPort it.2 = true
      · rw [if_pos hdig]
        have hne : it.1 ≠ ip := by
          intro heq
          have : isDigitPort it.2 = false := hd it.2 (by
            rw [← heq]
            exact List.mem_cons_self _ _)
          rw [hdig] at this
          cases this
        rw [lookupIp_dictSet_other hne]
        exact hm
      · rw [if_neg hdig]
        exact hm
    · rw [if_neg ha]
      have hne : it.1 ≠ ip := by
        intro heq
        apply ha
        rw [heq]
        exact lookupIp_any hm
      rw [lookupIp_append_other hne]
      exact hm



theorem scanFullF_ports (fuel : Nat) :
    ∀ s, ∀ p ∈ scanFullF fuel s, p.2 ≠ [] ∧ p.2.all isDigitC = true := by
  induction fuel with
  | zero => intro s p hp; simp [scanFullF] at hp
  | succ n ih =>
    intro s p hp
    cases s with
    | nil => simp [scanFullF] at hp
    | cons c cs =>
      rw [scanFullF] at hp
      cases hm : matchFullAt (c :: cs) with
      | none =>
        rw [hm] at hp
        exact ih cs p hp
      | some trip =>
        obtain ⟨ip, pt, r⟩ := trip
        rw [hm] at hp
        rcases List.mem_cons.mp hp with rfl | hp2
        · exact matchFullAt_port hm
        · exact ih r p hp2

theorem dedupFull_ports (F : List (List Char × List Char)) (seen : List String)
    (hF : ∀ p ∈ F, p.2 ≠ [] ∧ p.2.all isDigitC = true) :
    ∀ it ∈ (dedupFull F seen).1, isDigitPort it.2 = true := by
  induction F generalizing seen with
  | nil => intro it hit; simp [dedupFull] at hit
  | cons p rest ih =>
    intro it hit
    obtain ⟨ip, pt⟩ := p
    rw [dedupFull] at hit
    by_cases hs : (⟨ip⟩ : String) ∈ seen
    · rw [if_pos hs] at hit
      exact ih _ (fun q hq => hF q (List.mem_cons_of_mem _ hq)) it hit
    · rw [if_neg hs] at hit
      rcases List.mem_cons.mp hit with rfl | hit2
      · have hp := hF (ip, pt) (List.mem_cons_self _ _)
        unfold isDigitPort
        rw [Bool.and_eq_true]
        exact ⟨by simpa [List.isEmpty_iff] using hp.1, hp.2⟩
      · exact ih _ (fun q hq => hF q (List.mem_cons_of_mem _ hq)) it hit2

theorem dedupBare_ports (B : List (List Char)) (seen : List String) :
    ∀ it ∈ (dedupBare B seen).1, isDigitPort it.2 = true := by
  induction B generalizing seen with
  | nil => intro it hit; simp [dedupBare] at hit
  | cons ip rest ih =>
    intro it hit
    rw [dedupBare] at hit
    by_cases hs : (⟨ip⟩ : String) ∈ seen
    · rw [if_pos hs] at hit
      exact ih _ it hit
    · rw [if_neg hs] at hit
      rcases List.mem_cons.mp hit with rfl | hit2
      · show isDigitPort "443" = true
        decide
      · exact ih _ it hit2

theorem parse_ports_digits (t : String) :
    ∀ it ∈ parse_text_to_items t, isDigitPort it.2 = true := by
  intro it hit
  unfold parse_text_to_items parseItems at hit
  rcases List.mem_append.mp hit with h | h
  · exact dedupFull_ports _ _ (scanFullF_ports _ _) it h
  · exact dedupBare_ports _ _ it h

/-- C4 amended: an existing address keeps its earlier port exactly when
the later item's port string is empty or non-numeric; a nonempty
numeric port (including the default 443 the parser attaches to every
bare address) overwrites it; and the parser only ever emits nonempty
all-digit ports. -/
theorem C4_port_override (tls diy : List (String × String)) (ip p0 : String)
    (h : lookupIp (tlsFold tls) ip = some p0) :
    ((∀ p1, (ip, p1) ∈ diy → isDigitPort p1 = false) →
        lookupIp (mergeItems tls diy) ip = some p0) ∧
    (∀ p1, isDigitPort p1 = true →
        lookupIp (mergeItems tls [(ip, p1)]) ip = some p1) ∧
    (∀ t, ∀ it ∈ parse_text_to_items t, isDigitPort it.2 = true) := by
  refine ⟨fun hd => mergeKeep diy ip p0 _ h hd, fun p1 hp1 => ?_, parse_ports_digits⟩
  unfold mergeItems
  rw [List.foldl_cons, List.foldl_nil]
  unfold diyStep
  rw [if_pos (lookupIp_any h)]
  simp only
  rw [if_pos hp1]
  exact lookupIp_dictSet_self (lookupIp_any h)

/-- C4 amended witness: a non-numeric secondary port leaves the primary
port 8443 in place. -/
theorem C4_port_override_witness :
    lookupIp (mergeItems [("1.2.3.4", "8443")] [("1.2.3.4", "x")]) "1.2.3.4" =
      some "8443" :=
  (C4_port_override [("1.2.3.4", "8443")] [("1.2.3.4", "x")] "1.2.3.4" "8443"
      (by decide)).1
    (by
      intro p1 hp1
      rcases List.mem_singleton.mp hp1 with h
      have hx : p1 = "x" := congrArg Prod.snd h
      subst hx
      decide)

theorem dropWhile_append_block {p : Char → Bool} {x : Char} (hx : p x = false)
    (a r : List Char) : List.dropWhile p (a ++ x :: r) = List.dropWhile p a ++ x :: r := by
  induction a with
  | nil => simp [List.dropWhile, hx]
  | cons c a' ih =>
    cases hc : p c with
    | true => simpa [List.dropWhile, hc] using ih
    | false => simp [List.dropWhile, hc]

theorem stripL_append_of_all_ws {d : List Char} (h : stripL d = []) (m : List Char) :
    stripL (d ++ m) = stripL m := by
  induction d with
  | nil => rfl
  | cons c d' ih =>
    unfold stripL at *
    cases hc : isWsC c with
    | true =>
      rw [List.cons_append, List.dropWhile_cons_of_pos hc]
      rw [List.dropWhile_cons_of_pos hc] at h
      exact ih h
    | false =>
      rw [List.dropWhile_cons_of_neg (by simp [hc])] at h
      cases h
  
theorem stripL_append_of_ne {d : List Char} (h : stripL d ≠ []) (m : List Char) :
    stripL (d ++ m) = stripL d ++ m := by
  induction d with
  | nil => exact absurd rfl h
  | cons c d' ih =>
    unfold stripL at *
    cases hc : isWsC c with
    | true =>
      rw [List.cons_append, List.dropWhile_cons_of_pos hc, List.dropWhile_cons_of_pos hc]
      rw [List.dropWhile_cons_of_pos hc] at h
      exact ih h
    | false =>
      rw [List.cons_append, List.dropWhile_cons_of_neg (by simp [hc]),
        List.dropWhile_cons_of_neg (by simp [hc])]
      simp

theorem stripR_append_hash (x y : List Char) :
    stripR (x ++ '#' :: y) = x ++ '#' :: stripR y := by
  unfold stripR
  have h1 : (x ++ '#' :: y).reverse = y.reverse ++ '#' :: x.reverse := by
    simp
  rw [h1, dropWhile_append_block (by decide)]
  rw [List.reverse_append]
  simp

theorem stripR_cons_of_not_ws {h : Char} (hh : isWsC h = false) (e : List Char) :
    stripR (h :: e) = h :: stripR e := by
  unfold stripR
  have : (h :: e).reverse = e.reverse ++ h :: [] := by simp
  rw [this, dropWhile_append_block hh]
  simp

theorem stripR_prefix (e : List Char) : ∃ u, e = stripR e ++ u := by
  refine ⟨(List.takeWhile isWsC e.reverse).reverse, ?_⟩
  unfold stripR
  have : e.reverse = List.takeWhile isWsC e.reverse ++ List.dropWhile isWsC e.reverse :=
    (List.takeWhile_append_dropWhile _ _).symm
  calc e = e.reverse.reverse := by simp
  _ = (List.takeWhile isWsC e.reverse ++ List.dropWhile isWsC e.reverse).reverse := by
        rw [← this]
  _ = (List.dropWhile isWsC e.reverse).reverse ++ (List.takeWhile isWsC e.reverse).reverse := by
        rw [List.reverse_append]

theorem stripL_suffix (d : List Char) : ∃ u, d = u ++ stripL d :=
  ⟨List.takeWhile isWsC d, (List.takeWhile_append_dropWhile _ _).symm⟩

theorem stripL_head_not_ws {d : List Char} {h t} (hd : stripL d = h :: t) :
    isWsC h = false := by
  induction d with
  | nil => cases hd
  | cons c d' ih =>
    unfold stripL at hd
    cases hc : isWsC c with
    | true =>
      rw [List.dropWhile_cons_of_pos hc] at hd
      exact ih hd
    | false =>
      rw [List.dropWhile_cons_of_neg (by simp [hc])] at hd
      cases hd
      exact hc



theorem splitSH_append_marker {A : List Char} (h : splitSH A = none) (C : List Char) :
    splitSH (A ++ ' ' :: '#' :: C) = some (A, C) := by
  induction A with
  | nil =>
    rw [List.nil_append, splitSH]
    simp
  | cons a A' ih =>
    rw [splitSH] at h
    rw [List.cons_append, splitSH]
    by_cases hcnd : a = ' ' ∧ (A' ++ ' ' :: '#' :: C).head? = some '#'
    · exfalso
      obtain ⟨ha, hh⟩ := hcnd
      cases A' with
      | nil => simp at hh
      | cons b B =>
        simp only [List.cons_append, List.head?_cons] at hh
        injection hh with hb
        rw [if_pos (by exact ⟨ha, by simp [hb]⟩)] at h
        cases h
    · rw [if_neg hcnd]
      have hA' : splitSH A' = none := by
        by_cases hcnd0 : a = ' ' ∧ A'.head? = some '#'
        · rw [if_pos hcnd0] at h; cases h
        · rw [if_neg hcnd0] at h
          cases hs : splitSH A' with
          | none => rfl
          | some p => rw [hs] at h; cases h
      rw [ih hA']
      rfl

theorem splitSH_none_of_append {x y : List Char} (h : splitSH (x ++ y) = none) :
    splitSH x = none ∧ splitSH y = none := by
  induction x with
  | nil => exact ⟨rfl, h⟩
  | cons c x' ih =>
    rw [List.cons_append, splitSH] at h
    by_cases hcnd : c = ' ' ∧ (x' ++ y).head? = some '#'
    · rw [if_pos hcnd] at h; cases h
    · rw [if_neg hcnd] at h
      have hxy : splitSH (x' ++ y) = none := by
        cases hs : splitSH (x' ++ y) with
        | none => rfl
        | some p => rw [hs] at h; cases h
      obtain ⟨hx', hy⟩ := ih hxy
      refine ⟨?_, hy⟩
      rw [splitSH]
      by_cases hcnd0 : c = ' ' ∧ x'.head? = some '#'
      · exfalso
        obtain ⟨hc, hh⟩ := hcnd0
        cases x' with
        | nil => cases hh
        | cons b B =>
          simp only [List.head?_cons] at hh
          exact hcnd ⟨hc, by simp [hh]⟩
      · rw [if_neg hcnd0, hx']
        rfl



theorem stripL_cons_of_not_ws {h : Char} (hh : isWsC h = false) (e : List Char) :
    stripL (h :: e) = h :: e := by
  unfold stripL
  rw [List.dropWhile_cons_of_neg (by simp [hh])]

theorem cleanLine_inline_comment {d : List Char} (h : splitSH d = none) (c : List Char) :
    cleanLine (d ++ ' ' :: '#' :: c) = cleanLine d := by
  cases he : stripL d with
  | nil =>
    have hsd : strip d = [] := by
      unfold strip
      rw [he]
      rfl
    have h1 : stripL (d ++ ' ' :: '#' :: c) = '#' :: c := by
      rw [stripL_append_of_all_ws he]
      unfold stripL
      rw [List.dropWhile_cons_of_pos (by decide), List.dropWhile_cons_of_neg (by decide)]
    have h2 : strip (d ++ ' ' :: '#' :: c) = '#' :: stripR c := by
      unfold strip
      rw [h1, stripR_cons_of_not_ws (by decide)]
    unfold cleanLine
    rw [h2, hsd]
    simp
  | cons hh e' =>
    have hhw : isWsC hh = false := stripL_head_not_ws he
    have hne : stripL d ≠ [] := by rw [he]; exact List.cons_ne_nil _ _
    have h1 : stripL (d ++ ' ' :: '#' :: c) = (hh :: e') ++ ' ' :: '#' :: c := by
      rw [stripL_append_of_ne hne, he]
    have h2 : strip (d ++ ' ' :: '#' :: c) = (hh :: e') ++ ' ' :: '#' :: stripR c := by
      unfold strip
      rw [h1]
      have hre : (hh :: e') ++ ' ' :: '#' :: c = ((hh :: e') ++ [' ']) ++ '#' :: c := by
        simp
      rw [hre, stripR_append_hash]
      simp
    have hsd : strip d = hh :: stripR e' := by
      unfold strip
      rw [he, stripR_cons_of_not_ws hhw]
    have hSHe : splitSH (hh :: e') = none := by
      rcases stripL_suffix d with ⟨u, hu⟩
      rw [he] at hu
      exact (splitSH_none_of_append (x := u) (y := hh :: e') (hu ▸ h)).2
    unfold cleanLine
    rw [h2, hsd]
    by_cases hhash : hh = '#'
    · subst hhash
      simp
    · have hbeq : (hh == '#') = false := by simpa using hhash
      simp only [List.cons_append, hbeq, Bool.false_eq_true, if_false]
      have hSHfull : splitSH (hh :: (e' ++ ' ' :: '#' :: stripR c)) = some (hh :: e', stripR c) := by
        have := splitSH_append_marker hSHe (stripR c)
        simpa using this
      have hSHd : splitSH (hh :: stripR e') = none := by
        rcases stripR_prefix (hh :: e') with ⟨u, hu⟩
        rw [stripR_cons_of_not_ws hhw] at hu
        exact (splitSH_none_of_append (x := hh :: stripR e') (y := u) (hu ▸ hSHe)).1
      rw [hSHfull, hSHd]
      have hstripfix : strip (hh :: e') = hh :: stripR e' := by
        unfold strip
        rw [stripL_cons_of_not_ws hhw, stripR_cons_of_not_ws hhw]
      simp [hstripfix]



theorem filterMap_cleanLine_cons (x : List Char) (L : List (List Char)) :
    (x :: L).filterMap cleanLine = (cleanLine x).toList ++ L.filterMap cleanLine := by
  cases hcl : cleanLine x with
  | none => simp [List.filterMap_cons, hcl]
  | some y => simp [List.filterMap_cons, hcl]

theorem cleanLine_nil : cleanLine [] = none := rfl

theorem filterMap_cleanLine_flush (acc : List Char) :
    ((if acc.isEmpty then ([] : List (List Char)) else [acc.reverse]).filterMap cleanLine) =
      (cleanLine acc.reverse).toList := by
  cases acc with
  | nil => simp [cleanLine_nil]
  | cons c a =>
    simp only [List.isEmpty_cons, Bool.false_eq_true, if_false]
    rw [filterMap_cleanLine_cons]
    simp

theorem splitLinesAux_cons_nl {c : Char} (hc : isNlC c = true) (t acc : List Char) :
    splitLinesAux (c :: t) acc = acc.reverse :: splitLinesAux t [] := by
  rw [splitLinesAux, if_pos hc]

theorem splitLinesAux_cons_ord {c : Char} (hc : isNlC c = false) (t acc : List Char) :
    splitLinesAux (c :: t) acc = splitLinesAux t (c :: acc) := by
  rw [splitLinesAux, if_neg (by simp [hc])]

theorem splitLinesAux_nl_append (b : List Char) :
    ∀ (a acc : List Char),
      (splitLinesAux (a ++ '\n' :: b) acc).filterMap cleanLine =
        (splitLinesAux a acc).filterMap cleanLine ++
          (splitLines b).filterMap cleanLine := by
  intro a
  induction a with
  | nil =>
    intro acc
    rw [List.nil_append, splitLinesAux_cons_nl (by decide)]
    rw [filterMap_cleanLine_cons]
    conv_rhs => rw [splitLinesAux]
    rw [filterMap_cleanLine_flush]
    rfl
  | cons c a' ih =>
    intro acc
    rw [List.cons_append]
    cases hc : isNlC c with
    | true =>
      rw [splitLinesAux_cons_nl hc, filterMap_cleanLine_cons, ih]
      conv_rhs => rw [splitLinesAux_cons_nl hc, filterMap_cleanLine_cons]
      rw [List.append_assoc]
    | false =>
      rw [splitLinesAux_cons_ord hc, ih]
      conv_rhs => rw [splitLinesAux_cons_ord hc]

theorem cleanedLines_nl_append (a b : List Char) :
    cleanedLines (a ++ '\n' :: b) = cleanedLines a ++ cleanedLines b := by
  unfold cleanedLines splitLines
  exact splitLinesAux_nl_append b a []

theorem splitLinesAux_no_nl {cl : List Char} (h : ∀ ch ∈ cl, isNlC ch = false) :
    ∀ acc, splitLinesAux cl acc =
      if (acc.reverse ++ cl).isEmpty then [] else [acc.reverse ++ cl] := by
  induction cl with
  | nil =>
    intro acc
    rw [splitLinesAux]
    simp
  | cons c cl' ih =>
    intro acc
    rw [splitLinesAux, if_neg (by simp [h c (List.mem_cons_self _ _)])]
    rw [ih (fun ch hch => h ch (List.mem_cons_of_mem _ hch))]
    simp

theorem parseItems_congr {l1 l2 : List Char} (h : cleanedLines l1 = cleanedLines l2) :
    parseItems l1 = parseItems l2 := by
  unfold parseItems
  rw [h]



theorem cleanedLines_comment_line {cl : List Char} (hnl : ∀ ch ∈ cl, isNlC ch = false)
    (hsh : (strip cl).head? = some '#') : cleanedLines cl = [] := by
  unfold cleanedLines splitLines
  rw [splitLinesAux_no_nl hnl]
  cases cl with
  | nil => cases hsh
  | cons c0 cl' =>
    rw [if_neg (by simp)]
    simp only [List.reverse_nil, List.nil_append]
    rw [filterMap_cleanLine_cons]
    have hcl : cleanLine (c0 :: cl') = none := by
      unfold cleanLine
      cases hstrip : strip (c0 :: cl') with
      | nil => rw [hstrip] at hsh
      | cons h t =>
        rw [hstrip] at hsh
        simp only [List.head?_cons] at hsh
        injection hsh with hh
        subst hh
        simp
    rw [hcl]
    rfl

/-- C10: A line whose first non-blank character is a hash contributes
no candidates (parse is unchanged when the line is removed); on a data
line everything from the inline comment marker (the source's
space-hash) to the end of the line is removed before extraction; an
address appearing only inside a trailing comment is never recorded. -/
theorem C10_comment_handling :
    (∀ pre cl post : String, (∀ ch ∈ cl.data, isNlC ch = false) →
      (strip cl.data).head? = some '#' →
      parse_text_to_items (pre ++ "\n" ++ cl ++ "\n" ++ post) =
        parse_text_to_items (pre ++ "\n" ++ post)) ∧
    (∀ d c : List Char, splitSH d = none →
      cleanLine (d ++ ' ' :: '#' :: c) = cleanLine d) ∧
    parse_text_to_items "1.2.3.4:80 # 5.6.7.8:99" = [("1.2.3.4", "80")] := by
  refine ⟨?_, fun d c h => cleanLine_inline_comment h c, by decide⟩
  intro pre cl post hnl hsh
  unfold parse_text_to_items
  apply parseItems_congr
  have hnlc : ("\n" : String).data = ['\n'] := rfl
  have hdata : (pre ++ "\n" ++ cl ++ "\n" ++ post).data =
      pre.data ++ '\n' :: (cl.data ++ '\n' :: post.data) := by
    rw [String.data_append, String.data_append, String.data_append, String.data_append]
    rw [hnlc]
    simp
  have hdata2 : (pre ++ "\n" ++ post).data = pre.data ++ '\n' :: post.data := by
    rw [String.data_append, String.data_append, hnlc]
    simp
  rw [hdata, hdata2, cleanedLines_nl_append, cleanedLines_nl_append,
    cleanedLines_nl_append, cleanedLines_comment_line hnl hsh]
  rfl

/-- C10 witness: a whole-line comment between two data lines changes
nothing. -/
theorem C10_comment_handling_witness :
    parse_text_to_items ("1.1.1.1:80" ++ "\n" ++ "# 5.5.5.5:1" ++ "\n" ++ "2.2.2.2") =
      parse_text_to_items ("1.1.1.1:80" ++ "\n" ++ "2.2.2.2") :=
  C10_comment_handling.1 "1.1.1.1:80" "# 5.5.5.5:1" "2.2.2.2" (by decide) (by decide)

theorem takeWhile_append_block {p : Char → Bool} {x : Char} (hx : p x = false)
    (a r : List Char) : List.takeWhile p (a ++ x :: r) = List.takeWhile p a := by
  induction a with
  | nil => simp [List.takeWhile, hx]
  | cons c a' ih =>
    cases hc : p c with
    | true => simp [List.takeWhile, hc, ih]
    | false => simp [List.takeWhile, hc]

theorem extP_digitAlts (x y : List Char) :
    digitAlts (x ++ '\n' :: y) = (digitAlts x).map (fun p => (p.1, p.2 ++ '\n' :: y)) := by
  rcases x with _ | ⟨a, _ | ⟨b, _ | ⟨c, t⟩⟩⟩
  · simp [digitAlts, isDigitC]
  · simp only [List.cons_append, List.nil_append, digitAlts, List.filterMap]
    cases ha : a.isDigit <;> simp [isDigitC, ha]
  · simp only [List.cons_append, List.nil_append, digitAlts, List.filterMap]
    cases ha : a.isDigit <;> cases hb : b.isDigit <;> simp [isDigitC, ha, hb]
  · simp only [List.cons_append, List.nil_append, digitAlts, List.filterMap]
    cases ha : a.isDigit <;> cases hb : b.isDigit <;> cases hc : c.isDigit <;>
      simp [isDigitC, ha, hb, hc]



theorem dotAlts_cons_dot (t : List Char) :
    dotAlts ('.' :: t) = (digitAlts t).map (fun p => ('.' :: p.1, p.2)) := rfl

theorem dotAlts_not_dot {c : Char} (hc : c ≠ '.') (t : List Char) :
    dotAlts (c :: t) = [] := by
  unfold dotAlts
  split
  · rename_i heq
    injection heq with h1 h2
    exact absurd h1 hc
  · rfl

theorem extP_dotAlts (x y : List Char) :
    dotAlts (x ++ '\n' :: y) = (dotAlts x).map (fun p => (p.1, p.2 ++ '\n' :: y)) := by
  cases x with
  | nil =>
    rw [List.nil_append, dotAlts_not_dot (by decide)]
    rfl
  | cons c t =>
    by_cases hc : c = '.'
    · subst hc
      rw [List.cons_append, dotAlts_cons_dot, dotAlts_cons_dot, extP_digitAlts,
        List.map_map, List.map_map]
      rfl
    · rw [List.cons_append, dotAlts_not_dot hc, dotAlts_not_dot hc]
      rfl



theorem extP_seqA {f g : List Char → List (List Char × List Char)}
    (hf : ∀ x y, f (x ++ '\n' :: y) = (f x).map (fun p => (p.1, p.2 ++ '\n' :: y)))
    (hg : ∀ x y, g (x ++ '\n' :: y) = (g x).map (fun p => (p.1, p.2 ++ '\n' :: y)))
    (x y : List Char) :
    seqA f g (x ++ '\n' :: y) = (seqA f g x).map (fun p => (p.1, p.2 ++ '\n' :: y)) := by
  unfold seqA
  rw [hf]
  rw [List.flatMap_map]
  rw [List.map_flatMap]
  congr 1
  funext p
  rw [hg]
  rw [List.map_map, List.map_map]
  rfl

theorem extP_quadAlts (x y : List Char) :
    quadAlts (x ++ '\n' :: y) = (quadAlts x).map (fun p => (p.1, p.2 ++ '\n' :: y)) := by
  unfold quadAlts
  exact extP_seqA extP_digitAlts
    (extP_seqA extP_dotAlts (extP_seqA extP_dotAlts extP_dotAlts)) x y

theorem fullPred_ext (y : List Char) (p : List Char × List Char) :
    fullPred (p.1, p.2 ++ '\n' :: y) = fullPred p := by
  obtain ⟨m, r⟩ := p
  cases r with
  | nil => rfl
  | cons c t =>
    cases t with
    | nil =>
      by_cases hc : c = ':'
      · subst hc
        rfl
      · show fullPred (m, c :: '\n' :: y) = fullPred (m, [c])
        unfold fullPred
        simp only
        split
        · rename_i d rest heq
          injection heq with h1 h2
          exact absurd h1 hc
        · rfl
    | cons d t2 =>
      show fullPred (m, c :: d :: (t2 ++ '\n' :: y)) = fullPred (m, c :: d :: t2)
      unfold fullPred
      simp only
      split
      · rename_i d1 rest heq
        injection heq with h1 h2
        injection h2 with h2a h2b
        subst h1
        subst h2a
        split
        · rename_i d2 rest2 heq2
          injection heq2 with g1 g2
          injection g2 with g2a g2b
          subst g2a
          rfl
        · rename_i hno
          exact (hno d t2 rfl).elim
      · rename_i hno
        split
        · rename_i d2 rest2 heq2
          injection heq2 with g1 g2
          injection g2 with g2a g2b
          subst g1
          subst g2a
          exact (hno d (t2 ++ '\n' :: y) rfl).elim
        · rfl



theorem barePred_ext (y : List Char) (p : List Char × List Char) :
    barePred (p.1, p.2 ++ '\n' :: y) = barePred p := by
  obtain ⟨m, r⟩ := p
  cases r with
  | nil => rfl
  | cons c t => rfl

theorem fullPred_shape {m r : List Char} (h : fullPred (m, r) = true) :
    ∃ d t2, r = ':' :: d :: t2 ∧ isDigitC d = true := by
  unfold fullPred at h
  split at h
  · rename_i d t2 heq
    exact ⟨d, t2, heq, h⟩
  · cases h

theorem matchFullAt_ext (x y : List Char) :
    matchFullAt (x ++ '\n' :: y) =
      (matchFullAt x).map (fun q => (q.1, q.2.1, q.2.2 ++ '\n' :: y)) := by
  unfold matchFullAt
  rw [extP_quadAlts, List.find?_map]
  have hcomp : (fullPred ∘ fun p : List Char × List Char => (p.1, p.2 ++ '\n' :: y)) =
      fullPred := funext (fullPred_ext y)
  rw [hcomp]
  cases hfind : (quadAlts x).find? fullPred with
  | none => rfl
  | some p =>
    obtain ⟨m, r⟩ := p
    have hpred : fullPred (m, r) = true := List.find?_some hfind
    obtain ⟨d, t2, rfl, hd⟩ := fullPred_shape hpred
    show some (m, List.takeWhile isDigitC ((d :: t2) ++ '\n' :: y),
        List.dropWhile isDigitC ((d :: t2) ++ '\n' :: y)) = _
    rw [takeWhile_append_block (by decide), dropWhile_append_block (by decide)]
    rfl

theorem matchBareAt_ext (prev : Bool) (x y : List Char) :
    matchBareAt prev (x ++ '\n' :: y) =
      (matchBareAt prev x).map (fun q => (q.1, q.2 ++ '\n' :: y)) := by
  unfold matchBareAt
  cases prev with
  | true => rfl
  | false =>
    simp only [Bool.false_eq_true, if_false]
    rw [extP_quadAlts, List.find?_map]
    have hcomp : (barePred ∘ fun p : List Char × List Char => (p.1, p.2 ++ '\n' :: y)) =
        barePred := funext (barePred_ext y)
    rw [hcomp]



theorem dropWhile_length_le (p : Char → Bool) (l : List Char) :
    (l.dropWhile p).length ≤ l.length := by
  induction l with
  | nil => simp
  | cons c t ih =>
    cases hc : p c with
    | true =>
      rw [List.dropWhile_cons_of_pos hc]
      simp only [List.length_cons]
      omega
    | false => rw [List.dropWhile_cons_of_neg (by simp [hc])]

theorem digitAlts_split {s : List Char} {p} (hp : p ∈ digitAlts s) :
    s = p.1 ++ p.2 ∧ p.1 ≠ [] := by
  unfold digitAlts at hp
  rcases List.mem_filterMap.mp hp with ⟨n, hn, hcond⟩
  by_cases hc : ((s.take n).length = n && (s.take n).all isDigitC) = true
  · rw [if_pos hc] at hcond
    injection hcond with hcond
    subst hcond
    refine ⟨(List.take_append_drop n s).symm, ?_⟩
    have hlen : (s.take n).length = n := by
      rcases Bool.and_eq_true_iff.mp hc with ⟨h1, _⟩
      exact of_decide_eq_true h1
    intro hnil
    have hnil2 : List.take n s = [] := hnil
    rw [hnil2] at hlen
    simp at hlen
    subst hlen
    simp at hn
  · rw [if_neg hc] at hcond
    cases hcond

theorem seqA_split {f g : List Char → List (List Char × List Char)}
    (hf : ∀ s p, p ∈ f s → s = p.1 ++ p.2 ∧ p.1 ≠ [])
    (hg : ∀ s p, p ∈ g s → s = p.1 ++ p.2 ∧ p.1 ≠ []) :
    ∀ s p, p ∈ seqA f g s → s = p.1 ++ p.2 ∧ p.1 ≠ [] := by
  intro s p hp
  unfold seqA at hp
  rcases List.mem_flatMap.mp hp with ⟨q, hq, hp2⟩
  rcases List.mem_map.mp hp2 with ⟨w, hw, rfl⟩
  obtain ⟨hsq, hq1⟩ := hf s q hq
  obtain ⟨hqw, _⟩ := hg q.2 w hw
  constructor
  · rw [hsq, hqw]
    simp
  · simp [hq1]

theorem dotAlts_split : ∀ s p, p ∈ dotAlts s → s = p.1 ++ p.2 ∧ p.1 ≠ [] := by
  intro s p hp
  cases s with
  | nil => cases hp
  | cons c t =>
    by_cases hc : c = '.'
    · subst hc
      rw [dotAlts_cons_dot] at hp
      rcases List.mem_map.mp hp with ⟨q, hq, rfl⟩
      obtain ⟨hq1, _⟩ := digitAlts_split hq
      constructor
      · simp [← hq1]
      · simp
    · rw [dotAlts_not_dot hc] at hp
      cases hp

theorem quadAlts_split : ∀ s p, p ∈ quadAlts s → s = p.1 ++ p.2 ∧ p.1 ≠ [] := by
  unfold quadAlts
  exact seqA_split (fun s p => digitAlts_split)
    (seqA_split dotAlts_split (seqA_split dotAlts_split dotAlts_split))

theorem matchFullAt_lt {s ip pt r} (h : matchFullAt s = some (ip, pt, r)) :
    r.length < s.length := by
  unfold matchFullAt at h
  cases hf : (quadAlts s).find? fullPred with
  | none => rw [hf] at h; cases h
  | some p =>
    rw [hf] at h
    obtain ⟨m, rest⟩ := p
    have hmem := List.mem_of_find?_eq_some hf
    obtain ⟨hs, hm⟩ := quadAlts_split s (m, rest) hmem
    have hpred : fullPred (m, rest) = true := List.find?_some hf
    obtain ⟨d, t2, hrest, _⟩ := fullPred_shape hpred
    subst hrest
    simp only at h
    injection h with h1
    injection h1 with ha hb
    injection hb with hb1 hb2
    subst hb2
    have hs2 : s = m ++ ':' :: d :: t2 := hs
    have hlen : s.length = m.length + t2.length + 2 := by
      rw [hs2]
      simp [List.length_append]
      omega
    have hdw : (List.dropWhile isDigitC (d :: t2)).length ≤ (d :: t2).length :=
      dropWhile_length_le _ _
    have hm0 : m ≠ [] := hm
    have hm1 : 1 ≤ m.length := List.length_pos.mpr hm0
    simp only [List.length_cons] at hdw
    omega

theorem matchBareAt_lt {prev s m r} (h : matchBareAt prev s = some (m, r)) :
    r.length < s.length := by
  unfold matchBareAt at h
  cases prev with
  | true => cases h
  | false =>
    simp only [Bool.false_eq_true, if_false] at h
    have hmem := List.mem_of_find?_eq_some h
    obtain ⟨hs, hm⟩ := quadAlts_split s (m, r) hmem
    rw [hs]
    simp only [List.length_append]
    have hm1 : 1 ≤ m.length := List.length_pos.mpr hm
    omega



theorem scanFullF_fuel : ∀ f1 : Nat, ∀ s : List Char, ∀ f2 : Nat,
    s.length ≤ f1 → s.length ≤ f2 → scanFullF f1 s = scanFullF f2 s := by
  intro f1
  induction f1 with
  | zero =>
    intro s f2 h1 _
    have : s = [] := List.eq_nil_of_length_eq_zero (Nat.le_zero.mp h1)
    subst this
    cases f2 <;> rfl
  | succ n ih =>
    intro s f2 h1 h2
    cases s with
    | nil => cases f2 <;> rfl
    | cons c cs =>
      cases f2 with
      | zero => simp at h2
      | succ m =>
        rw [scanFullF, scanFullF]
        cases hm : matchFullAt (c :: cs) with
        | none =>
          simp only [List.length_cons] at h1 h2
          dsimp only
          exact ih cs m (by omega) (by omega)
        | some trip =>
          obtain ⟨ip, pt, r⟩ := trip
          have hlt := matchFullAt_lt hm
          simp only [List.length_cons] at h1 h2 hlt
          dsimp only
          rw [ih r m (by omega) (by omega)]

theorem scanFull_cons_some {c : Char} {cs ip pt r : List Char}
    (h : matchFullAt (c :: cs) = some (ip, pt, r)) :
    scanFull (c :: cs) = (ip, pt) :: scanFull r := by
  unfold scanFull
  have hlt := matchFullAt_lt h
  simp only [List.length_cons] at hlt ⊢
  rw [scanFullF, h]
  dsimp only
  rw [scanFullF_fuel cs.length r r.length (by omega) (by omega)]

theorem scanFull_cons_none {c : Char} {cs : List Char}
    (h : matchFullAt (c :: cs) = none) :
    scanFull (c :: cs) = scanFull cs := by
  unfold scanFull
  simp only [List.length_cons]
  rw [scanFullF, h]

theorem scanBareF_fuel : ∀ f1 : Nat, ∀ (prev : Bool) (s : List Char), ∀ f2 : Nat,
    s.length ≤ f1 → s.length ≤ f2 → scanBareF f1 prev s = scanBareF f2 prev s := by
  intro f1
  induction f1 with
  | zero =>
    intro prev s f2 h1 _
    have : s = [] := List.eq_nil_of_length_eq_zero (Nat.le_zero.mp h1)
    subst this
    cases f2 <;> rfl
  | succ n ih =>
    intro prev s f2 h1 h2
    cases s with
    | nil => cases f2 <;> rfl
    | cons c cs =>
      cases f2 with
      | zero => simp at h2
      | succ m =>
        rw [scanBareF, scanBareF]
        cases hm : matchBareAt prev (c :: cs) with
        | none =>
          simp only [List.length_cons] at h1 h2
          dsimp only
          exact ih _ cs m (by omega) (by omega)
        | some pr =>
          obtain ⟨ip, r⟩ := pr
          have hlt := matchBareAt_lt hm
          simp only [List.length_cons] at h1 h2 hlt
          dsimp only
          rw [ih true r m (by omega) (by omega)]

theorem scanBareGo_cons_some {prev : Bool} {c : Char} {cs ip r : List Char}
    (h : matchBareAt prev (c :: cs) = some (ip, r)) :
    scanBareGo prev (c :: cs) = ip :: scanBareGo true r := by
  unfold scanBareGo
  have hlt := matchBareAt_lt h
  simp only [List.length_cons] at hlt ⊢
  rw [scanBareF, h]
  dsimp only
  rw [scanBareF_fuel cs.length true r r.length (by omega) (by omega)]

theorem scanBareGo_cons_none {prev : Bool} {c : Char} {cs : List Char}
    (h : matchBareAt prev (c :: cs) = none) :
    scanBareGo prev (c :: cs) = scanBareGo (isWordC c) cs := by
  unfold scanBareGo
  simp only [List.length_cons]
  rw [scanBareF, h]



theorem quadAlts_nl (y : List Char) : quadAlts ('\n' :: y) = [] := by
  have h := extP_quadAlts [] y
  simpa using h

theorem matchFullAt_nl (y : List Char) : matchFullAt ('\n' :: y) = none := by
  unfold matchFullAt
  rw [quadAlts_nl]
  rfl

theorem matchBareAt_nl (prev : Bool) (y : List Char) :
    matchBareAt prev ('\n' :: y) = none := by
  unfold matchBareAt
  cases prev with
  | true => rfl
  | false =>
    simp only [Bool.false_eq_true, if_false]
    rw [quadAlts_nl]
    rfl

theorem scanFull_nl_append : ∀ (n : Nat) (x : List Char), x.length ≤ n → ∀ y,
    scanFull (x ++ '\n' :: y) = scanFull x ++ scanFull y := by
  intro n
  induction n with
  | zero =>
    intro x hx y
    have : x = [] := List.eq_nil_of_length_eq_zero (Nat.le_zero.mp hx)
    subst this
    rw [List.nil_append, scanFull_cons_none (matchFullAt_nl y)]
    rfl
  | succ n ih =>
    intro x hx y
    cases x with
    | nil =>
      rw [List.nil_append, scanFull_cons_none (matchFullAt_nl y)]
      rfl
    | cons c cs =>
      cases hm : matchFullAt (c :: cs) with
      | some trip =>
        obtain ⟨ip, pt, r⟩ := trip
        have hext : matchFullAt ((c :: cs) ++ '\n' :: y) = some (ip, pt, r ++ '\n' :: y) := by
          rw [matchFullAt_ext, hm]
          rfl
        rw [List.cons_append] at hext
        rw [List.cons_append, scanFull_cons_some hext, scanFull_cons_some hm]
        have hlt := matchFullAt_lt hm
        simp only [List.length_cons] at hx hlt
        rw [ih r (by omega) y]
        rfl
      | none =>
        have hext : matchFullAt ((c :: cs) ++ '\n' :: y) = none := by
          rw [matchFullAt_ext, hm]
          rfl
        rw [List.cons_append] at hext
        rw [List.cons_append, scanFull_cons_none hext, scanFull_cons_none hm]
        simp only [List.length_cons] at hx
        exact ih cs (by omega) y

theorem scanBareGo_nl_append : ∀ (n : Nat) (x : List Char), x.length ≤ n →
    ∀ (prev : Bool) (y : List Char),
    scanBareGo prev (x ++ '\n' :: y) = scanBareGo prev x ++ scanBareGo false y := by
  intro n
  induction n with
  | zero =>
    intro x hx prev y
    have : x = [] := List.eq_nil_of_length_eq_zero (Nat.le_zero.mp hx)
    subst this
    rw [List.nil_append, scanBareGo_cons_none (matchBareAt_nl prev y)]
    rfl
  | succ n ih =>
    intro x hx prev y
    cases x with
    | nil =>
      rw [List.nil_append, scanBareGo_cons_none (matchBareAt_nl prev y)]
      rfl
    | cons c cs =>
      cases hm : matchBareAt prev (c :: cs) with
      | some pr =>
        obtain ⟨ip, r⟩ := pr
        have hext : matchBareAt prev ((c :: cs) ++ '\n' :: y) = some (ip, r ++ '\n' :: y) := by
          rw [matchBareAt_ext, hm]
          rfl
        rw [List.cons_append] at hext
        rw [List.cons_append, scanBareGo_cons_some hext, scanBareGo_cons_some hm]
        have hlt := matchBareAt_lt hm
        simp only [List.length_cons] at hx hlt
        rw [ih r (by omega) true y]
        rfl
      | none =>
        have hext : matchBareAt prev ((c :: cs) ++ '\n' :: y) = none := by
          rw [matchBareAt_ext, hm]
          rfl
        rw [List.cons_append] at hext
        rw [List.cons_append, scanBareGo_cons_none hext, scanBareGo_cons_none hm]
        simp only [List.length_cons] at hx
        exact ih cs (by omega) (isWordC c) y



theorem joinNL_cons2 (l l2 : List Char) (ls : List (List Char)) :
    joinNL (l :: l2 :: ls) = l ++ '\n' :: joinNL (l2 :: ls) := rfl

theorem joinNL_append {c1 c2 : List (List Char)} (h1 : c1 ≠ []) (h2 : c2 ≠ []) :
    joinNL (c1 ++ c2) = joinNL c1 ++ '\n' :: joinNL c2 := by
  induction c1 with
  | nil => exact absurd rfl h1
  | cons x c1' ih =>
    cases c1' with
    | nil =>
      cases c2 with
      | nil => exact absurd rfl h2
      | cons y c2' =>
        rw [List.cons_append, List.nil_append, joinNL_cons2]
        rfl
    | cons x2 rest =>
      rw [List.cons_append, List.cons_append, joinNL_cons2]
      rw [joinNL_cons2, ← List.cons_append]
      rw [ih (by simp)]
      simp

theorem dedupFull_append (B : List (List Char × List Char)) :
    ∀ (A : List (List Char × List Char)) (s : List String),
      dedupFull (A ++ B) s =
        ((dedupFull A s).1 ++ (dedupFull B (dedupFull A s).2).1,
          (dedupFull B (dedupFull A s).2).2) := by
  intro A
  induction A with
  | nil => intro s; rfl
  | cons p A' ih =>
    intro s
    obtain ⟨ip, pt⟩ := p
    rw [List.cons_append, dedupFull, dedupFull]
    by_cases hs : (⟨ip⟩ : String) ∈ s
    · rw [if_pos hs, if_pos hs]
      exact ih s
    · rw [if_neg hs, if_neg hs]
      rw [ih ((⟨ip⟩ : String) :: s)]
      simp

theorem dedupFull_seen_mono : ∀ (A : List (List Char × List Char)) (s : List String)
    (x : String), x ∈ s → x ∈ (dedupFull A s).2 := by
  intro A
  induction A with
  | nil => intro s x hx; exact hx
  | cons p A' ih =>
    intro s x hx
    obtain ⟨ip, pt⟩ := p
    rw [dedupFull]
    by_cases hs : (⟨ip⟩ : String) ∈ s
    · rw [if_pos hs]
      exact ih s x hx
    · rw [if_neg hs]
      exact ih _ x (List.mem_cons_of_mem _ hx)

theorem dedupFull_seen : ∀ (A : List (List Char × List Char)) (s : List String),
    ∀ q ∈ A, (⟨q.1⟩ : String) ∈ (dedupFull A s).2 := by
  intro A
  induction A with
  | nil => intro s q hq; cases hq
  | cons p A' ih =>
    intro s q hq
    obtain ⟨ip, pt⟩ := p
    rw [dedupFull]
    rcases List.mem_cons.mp hq with rfl | hq2
    · by_cases hs : (⟨ip⟩ : String) ∈ s
      · rw [if_pos hs]
        exact dedupFull_seen_mono A' s _ hs
      · rw [if_neg hs]
        exact dedupFull_seen_mono A' _ _ (List.mem_cons_self _ _)
    · by_cases hs : (⟨ip⟩ : String) ∈ s
      · rw [if_pos hs]
        exact ih s q hq2
      · rw [if_neg hs]
        exact ih _ q hq2

theorem dedupFull_absorb : ∀ (A : List (List Char × List Char)) (s : List String),
    (∀ q ∈ A, (⟨q.1⟩ : String) ∈ s) → dedupFull A s = ([], s) := by
  intro A
  induction A with
  | nil => intro s _; rfl
  | cons p A' ih =>
    intro s h
    obtain ⟨ip, pt⟩ := p
    rw [dedupFull, if_pos (h (ip, pt) (List.mem_cons_self _ _))]
    exact ih s (fun q hq => h q (List.mem_cons_of_mem _ hq))

theorem dedupBare_append (B : List (List Char)) :
    ∀ (A : List (List Char)) (s : List String),
      dedupBare (A ++ B) s =
        ((dedupBare A s).1 ++ (dedupBare B (dedupBare A s).2).1,
          (dedupBare B (dedupBare A s).2).2) := by
  intro A
  induction A with
  | nil => intro s; rfl
  | cons ip A' ih =>
    intro s
    rw [List.cons_append, dedupBare, dedupBare]
    by_cases hs : (⟨ip⟩ : String) ∈ s
    · rw [if_pos hs, if_pos hs]
      exact ih s
    · rw [if_neg hs, if_neg hs]
      rw [ih ((⟨ip⟩ : String) :: s)]
      simp

theorem dedupBare_seen_mono : ∀ (A : List (List Char)) (s : List String)
    (x : String), x ∈ s → x ∈ (dedupBare A s).2 := by
  intro A
  induction A with
  | nil => intro s x hx; exact hx
  | cons ip A' ih =>
    intro s x hx
    rw [dedupBare]
    by_cases hs : (⟨ip⟩ : String) ∈ s
    · rw [if_pos hs]
      exact ih s x hx
    · rw [if_neg hs]
      exact ih _ x (List.mem_cons_of_mem _ hx)

theorem dedupBare_seen : ∀ (A : List (List Char)) (s : List String),
    ∀ q ∈ A, (⟨q⟩ : String) ∈ (dedupBare A s).2 := by
  intro A
  induction A with
  | nil => intro s q hq; cases hq
  | cons ip A' ih =>
    intro s q hq
    rw [dedupBare]
    rcases List.mem_cons.mp hq with rfl | hq2
    · by_cases hs : (⟨q⟩ : String) ∈ s
      · rw [if_pos hs]
        exact dedupBare_seen_mono A' s _ hs
      · rw [if_neg hs]
        exact dedupBare_seen_mono A' _ _ (List.mem_cons_self _ _)
    · by_cases hs : (⟨ip⟩ : String) ∈ s
      · rw [if_pos hs]
        exact ih s q hq2
      · rw [if_neg hs]
        exact ih _ q hq2

theorem dedupBare_absorb : ∀ (A : List (List Char)) (s : List String),
    (∀ q ∈ A, (⟨q⟩ : String) ∈ s) → dedupBare A s = ([], s) := by
  intro A
  induction A with
  | nil => intro s _; rfl
  | cons ip A' ih =>
    intro s h
    rw [dedupBare, if_pos (h ip (List.mem_cons_self _ _))]
    exact ih s (fun q hq => h q (List.mem_cons_of_mem _ hq))



theorem parseItems_dup (l : List Char) :
    parseItems (l ++ '\n' :: l) = parseItems l := by
  unfold parseItems
  dsimp only
  rw [cleanedLines_nl_append]
  by_cases hc : cleanedLines l = []
  · rw [hc]
    rfl
  · rw [joinNL_append hc hc]
    have hsf : scanFull (joinNL (cleanedLines l) ++ '\n' :: joinNL (cleanedLines l)) =
        scanFull (joinNL (cleanedLines l)) ++ scanFull (joinNL (cleanedLines l)) :=
      scanFull_nl_append (joinNL (cleanedLines l)).length _ le_rfl _
    have hsb : scanBare (joinNL (cleanedLines l) ++ '\n' :: joinNL (cleanedLines l)) =
        scanBare (joinNL (cleanedLines l)) ++ scanBare (joinNL (cleanedLines l)) :=
      scanBareGo_nl_append (joinNL (cleanedLines l)).length _ le_rfl false _
    rw [hsf, hsb]
    rw [dedupFull_append, dedupBare_append]
    rw [dedupFull_absorb _ _ (dedupFull_seen _ [])]
    rw [dedupBare_absorb _ _ (dedupBare_seen _ _)]
    simp

/-- C9: Parsing a blob concatenated with itself (with a newline between
the copies) yields exactly the same item list, in the same order, as
parsing the blob once: the first extraction pass and the bare-ip pass
both see every address first in the first copy, and the seen-set
deduplication drops the whole second copy. -/
theorem C9_parse_idempotent (t : String) :
    parse_text_to_items (t ++ "\n" ++ t) = parse_text_to_items t := by
  unfold parse_text_to_items
  have hdata : (t ++ "\n" ++ t).data = t.data ++ '\n' :: t.data := by
    rw [String.data_append, String.data_append]
    have : ("\n" : String).data = ['\n'] := rfl
    rw [this]
    simp
  rw [hdata, parseItems_dup]

end CfAuto
